import Mathlib

/-!
# Verification of the LinkedIn Comment Scraper

Shallow embedding of the repository's core logic:

* `src/utils.py` — `get_timestamp_from_urn` (URN → timestamp decoder),
  result merging semantics used by `save_results` / `append_results`;
* `src/scraper.py` — `LinkedinScraper.get_post_links` (scroll pagination with
  the age-based stopping rule and the instance-scoped seen-set);
* `src/main.py` — `main`'s per-target pipeline (checkpointing, per-post
  commenter extraction, merge against existing output, finalization) and the
  loop over targets.

Machine integers are modelled as `Nat`/`Int`; Python `datetime` instants are
modelled by their integer epoch-milliseconds (for every value the decoder can
produce, below 2^41 ms, the float conversion `ms / 1000` fed to
`datetime.fromtimestamp` is injective and order-preserving, so equality and
ordering statements transfer); fallible steps are `Option`/`Except`.
-/

namespace Scraper

/-! ## Identifier → timestamp decoder (src/utils.py, get_timestamp_from_urn) -/

/-- Numeric value of a list of decimal digit characters
(Python `int` applied to the digit string `match.group(1)`). -/
def digitsToNat (l : List Char) : Nat :=
  l.foldl (fun a c => a * 10 + (c.toNat - 48)) 0

/-- Does the second list start with the first, character by character? -/
def leadsWith : List Char → List Char → Bool
  | [], _ => true
  | _ :: _, [] => false
  | p :: ps, c :: cs => p == c && leadsWith ps cs

/-- Attempt to match the regular expression `activity:(\d+)` anchored at the
start of `l`: if `l` starts with `activity:` followed by at least one digit,
return the maximal digit run (the capture group). -/
def matchActivity (l : List Char) : Option (List Char) :=
  let pat := "activity:".toList
  if leadsWith pat l then
    let ds := (l.drop pat.length).takeWhile Char.isDigit
    if ds.isEmpty then none else some ds
  else none

/-- Leftmost match of `activity:(\d+)`, as `re.search` computes it: try each
start position from the left, return the first position's capture group. -/
def searchActivity : List Char → Option (List Char)
  | [] => none
  | c :: rest =>
    match matchActivity (c :: rest) with
    | some ds => some ds
    | none => searchActivity rest

/-- The numeric component `int(match.group(1))` of a URN, when
`re.search(r'activity:(\d+)', urn)` matches. -/
def urnNumeric (urn : String) : Option Nat :=
  (searchActivity urn.toList).map digitsToNat

/-- Number of binary digits of `n` (0 for `n = 0`), written with explicit fuel
so that it reduces by kernel computation; the fuel `n` is always sufficient
because the recursion halves `n` at every step. -/
def bitLenAux : Nat → Nat → Nat
  | 0, _ => 0
  | fuel + 1, n => if n = 0 then 0 else bitLenAux fuel (n / 2) + 1

/-- Bit length of a natural number: the number of digits of `bin n` after
the `"0b"` marker, for `n > 0`. -/
def bitLen (n : Nat) : Nat := bitLenAux n n

/-- Python `int(bin(n)[2:43], 2)`: `bin n` is `"0b"` followed by the binary
digits of `n` (most significant first, `bitLen n` digits for `n > 0`, the
single digit `0` for `n = 0`), so the slice keeps the first (most significant)
41 binary digits — all of them when `n` has at most 41 bits, otherwise the
top 41, i.e. `n >>> (bitLen n - 41)`. -/
def top41 (n : Nat) : Nat :=
  if bitLen n ≤ 41 then n else n >>> (bitLen n - 41)

/-- `get_timestamp_from_urn` (src/utils.py lines 44-64): search for
`activity:(\d+)`, returning `None` when absent; otherwise take the first 41
binary digits of the numeric component as a millisecond Unix epoch value and
return the corresponding aware UTC datetime, modelled here by its
epoch-milliseconds. -/
def get_timestamp_from_urn (urn : String) : Option Nat :=
  (urnNumeric urn).map top41

/-! ## C1 / C2: decoder claims -/

/-- C1 counterexample: decoding the golden identifier
`"urn:li:activity:7316321711396700160"` does NOT yield the value obtained from
the lowest-order 41 bits of the numeric component (`7316321711396700160 % 2^41
= 2015384518656` ms): the code slices `bin(n)[2:43]`, which keeps the first
(most significant) 41 binary digits, yielding `1744347026681` ms instead. -/
theorem C1_counterexample :
    get_timestamp_from_urn "urn:li:activity:7316321711396700160"
      ≠ some (7316321711396700160 % 2 ^ 41) := by
  decide

/-- C1 (amended): for every identifier containing `activity:` followed by
digits, the decoder extracts the trailing numeric component `n` and takes the
HIGHEST-order 41 bits of its binary representation (all of `n` when it has at
most 41 bits, i.e. `n / 2 ^ (bitLen n - min (bitLen n) 41)`) as a millisecond
Unix epoch value; in particular the golden identifier decodes to
`1744347026681` ms. -/
theorem C1_decoder_takes_top_bits :
    (∀ urn n, urnNumeric urn = some n →
      get_timestamp_from_urn urn = some (n / 2 ^ (bitLen n - min (bitLen n) 41))) ∧
    get_timestamp_from_urn "urn:li:activity:7316321711396700160"
      = some 1744347026681 := by
  constructor
  · intro urn n h
    show (urnNumeric urn).map top41 = _
    rw [h]
    show some (top41 n) = _
    congr 1
    unfold top41
    by_cases hle : bitLen n ≤ 41
    · rw [if_pos hle, Nat.min_eq_left hle, Nat.sub_self, pow_zero, Nat.div_one]
    · rw [if_neg hle, Nat.min_eq_right (Nat.le_of_not_le hle),
        Nat.shiftRight_eq_div_pow]
  · decide

/-- Witness for C1 (amended) at the concrete identifier `"activity:7"`. -/
theorem C1_decoder_takes_top_bits_witness :
    get_timestamp_from_urn "activity:7"
      = some (7 / 2 ^ (bitLen 7 - min (bitLen 7) 41)) :=
  C1_decoder_takes_top_bits.1 "activity:7" 7 (by decide)

/-- C2 counterexample: the identifier `"activity:2199023255552"` (numeric
component `2^41`) has a strictly larger numeric component than
`"activity:2199023255551"` (`2^41 - 1`), yet it decodes to the strictly
smaller timestamp: the first-41-binary-digit slice maps `2^41` (42 bits) to
`2^40` but maps `2^41 - 1` (41 bits) to itself. -/
theorem C2_counterexample :
    urnNumeric "activity:2199023255552" = some 2199023255552 ∧
    urnNumeric "activity:2199023255551" = some 2199023255551 ∧
    (2199023255551 : Nat) < 2199023255552 ∧
    get_timestamp_from_urn "activity:2199023255552" = some 1099511627776 ∧
    get_timestamp_from_urn "activity:2199023255551" = some 2199023255551 ∧
    (1099511627776 : Nat) < 2199023255551 := by
  refine ⟨by decide, by decide, by decide, by decide, by decide, by decide⟩

/-- C2 (amended): decode is deterministic (equal identifiers decode equal),
and it is monotone on pairs of identifiers whose numeric components have the
same binary bit length: if `bitLen a = bitLen b` and `b ≤ a` then the decoded
timestamp of the identifier carrying `b` is at most that of the identifier
carrying `a`. (Monotonicity fails across different bit lengths, see the
counterexample.) -/
theorem C2_decode_deterministic_monotone :
    (∀ s₁ s₂ : String, s₁ = s₂ →
      get_timestamp_from_urn s₁ = get_timestamp_from_urn s₂) ∧
    (∀ sA sB a b, urnNumeric sA = some a → urnNumeric sB = some b →
      bitLen a = bitLen b → b ≤ a →
      top41 b ≤ top41 a ∧
      get_timestamp_from_urn sA = some (top41 a) ∧
      get_timestamp_from_urn sB = some (top41 b)) := by
  constructor
  · intro s₁ s₂ h
    rw [h]
  · intro sA sB a b hA hB hlen hba
    refine ⟨?_, ?_, ?_⟩
    · unfold top41
      rw [hlen]
      by_cases hle : bitLen b ≤ 41
      · rw [if_pos hle, if_pos hle]
        exact hba
      · rw [if_neg hle, if_neg hle, Nat.shiftRight_eq_div_pow,
          Nat.shiftRight_eq_div_pow]
        exact Nat.div_le_div_right hba
    · show (urnNumeric sA).map top41 = _
      rw [hA]
      rfl
    · show (urnNumeric sB).map top41 = _
      rw [hB]
      rfl

/-- Witness for C2 (amended) at the identifiers `"activity:13"` and
`"activity:12"` (both numeric components have bit length 4). -/
theorem C2_decode_deterministic_monotone_witness :
    top41 12 ≤ top41 13 ∧
    get_timestamp_from_urn "activity:13" = some (top41 13) ∧
    get_timestamp_from_urn "activity:12" = some (top41 12) :=
  C2_decode_deterministic_monotone.2 "activity:13" "activity:12" 13 12
    (by decide) (by decide) (by decide) (by decide)

/-! ## Pagination engine (src/scraper.py, LinkedinScraper.get_post_links)

The scroll loop of `get_post_links` is a fold over the successive DOM
snapshots: each `while` iteration reads the current list of post elements and
each element contributes its `data-urn` attribute (`none` when the attribute is
missing; a driver exception while reading an element is logged and the element
skipped, which is observationally the same as `none`, so `Option String`
covers both).  The run's environment is therefore a list of snapshots, a
current time `now` and the retention window `limit` (both in milliseconds,
`limit = days_limit * 86400000`); the instance-scoped `seen_post_links` set is
threaded in and out explicitly.  The final Python `list(set(post_links))`
enumerates the distinct accumulated links in an order determined by the
process's randomized string hashing, so the model takes the enumeration
`setEnum` as a parameter constrained only to produce some enumeration of the
set (a permutation of `List.dedup`). -/

/-- `urn.split(":")[-1]`: the characters after the last colon (the whole
string when it has no colon, empty when it ends with one). -/
def lastSegment (l : List Char) : List Char :=
  (l.reverse.takeWhile (fun c => c != ':')).reverse

/-- The canonical permalink built from a post's `data-urn` attribute:
`urn.split(":")[-1]` glued into the feed-update URL template. -/
def cleanUrlOf (urn : String) : String :=
  "https://www.linkedin.com/feed/update/urn:li:activity:"
    ++ String.mk (lastSegment urn.toList) ++ "/"

/-- State of one scan: the instance-scoped seen-set, the accumulated
`post_links`, this iteration's `new_posts_found` flag and the
`keep_scrolling` flag. -/
structure IterState where
  seen : List String
  links : List String
  newFound : Bool
  keepScrolling : Bool
  deriving DecidableEq, Repr

/-- One element of the `for i in range(post_count)` body of `get_post_links`:
skip when the attribute is missing, skip elements whose canonical URL is
already in the seen-set, record unseen ones in the seen-set, skip when the
timestamp cannot be decoded, append within-window links, and clear
`keep_scrolling` on the first over-window element.  After `keep_scrolling`
has been cleared the remaining elements are not processed (the Python
`break`), modelled by the guard at the head of the step. -/
def stepElem (now limit : Int) (st : IterState) (e : Option String) : IterState :=
  if st.keepScrolling = false then st
  else
    match e with
    | none => st
    | some urn =>
      let cleanUrl := cleanUrlOf urn
      if cleanUrl ∈ st.seen then st
      else
        let st1 : IterState :=
          { st with seen := cleanUrl :: st.seen, newFound := true }
        match get_timestamp_from_urn urn with
        | none => st1
        | some ts =>
          if now - (ts : Int) ≤ limit then
            { st1 with links := st1.links ++ [cleanUrl] }
          else
            { st1 with keepScrolling := false }

/-- The per-snapshot element loop: fold the step over the elements in page
order. -/
def processElems (now limit : Int) (l : List (Option String)) (st : IterState) :
    IterState :=
  l.foldl (stepElem now limit) st

/-- The `while keep_scrolling` loop of `get_post_links`: one snapshot per
iteration; an empty snapshot is `post_count == 0` (break), a cleared
`keep_scrolling` ends the loop, an iteration with no new posts ends the loop,
and exhausting the snapshot list models the page producing no further
content.  Returns the accumulated `post_links` and the final seen-set. -/
def scanIters (now limit : Int) :
    List (List (Option String)) → List String → List String →
    List String × List String
  | [], seen, links => (links, seen)
  | snap :: rest, seen, links =>
    if snap.isEmpty then (links, seen)
    else if (processElems now limit snap ⟨seen, links, false, true⟩).keepScrolling
        = false then
      ((processElems now limit snap ⟨seen, links, false, true⟩).links,
       (processElems now limit snap ⟨seen, links, false, true⟩).seen)
    else if (processElems now limit snap ⟨seen, links, false, true⟩).newFound
        = false then
      ((processElems now limit snap ⟨seen, links, false, true⟩).links,
       (processElems now limit snap ⟨seen, links, false, true⟩).seen)
    else
      scanIters now limit rest
        (processElems now limit snap ⟨seen, links, false, true⟩).seen
        (processElems now limit snap ⟨seen, links, false, true⟩).links

/-- `get_post_links` (src/scraper.py lines 47-142): run the scroll loop from
the instance's current seen-set and return `list(set(post_links))` together
with the updated seen-set.  `setEnum` is the process's set-enumeration
order (see the section comment). -/
def get_post_links (now limit : Int) (setEnum : List String → List String)
    (iters : List (List (Option String))) (seen0 : List String) :
    List String × List String :=
  let r := scanIters now limit iters seen0 []
  (setEnum r.1, r.2)

/-- A function is a possible `list(set(·))` enumeration if it returns the
distinct elements of its input in some order, i.e. a permutation of
`List.dedup`. -/
def goodEnum (f : List String → List String) : Prop :=
  ∀ l : List String, (f l).Perm l.dedup

/-- `List.dedup` itself is one possible set-enumeration order. -/
theorem goodEnum_dedup : goodEnum (fun l => l.dedup) :=
  fun _ => List.Perm.refl _

/-- Reversed `List.dedup` is also a possible set-enumeration order (string
hashing is randomized per process, so no particular order is guaranteed). -/
def revEnum (l : List String) : List String := l.dedup.reverse

theorem goodEnum_revEnum : goodEnum revEnum :=
  fun l => List.reverse_perm l.dedup

/-- A stopped scan processes no further element. -/
theorem processElems_stopped (now limit : Int) (l : List (Option String))
    (st : IterState) (h : st.keepScrolling = false) :
    processElems now limit l st = st := by
  induction l with
  | nil => rfl
  | cons e rest ih =>
    show processElems now limit rest (stepElem now limit st e) = st
    rw [show stepElem now limit st e = st from by simp [stepElem, h]]
    exact ih

/-- Splitting the element loop at any point. -/
theorem processElems_append (now limit : Int) (l₁ l₂ : List (Option String))
    (st : IterState) :
    processElems now limit (l₁ ++ l₂) st
      = processElems now limit l₂ (processElems now limit l₁ st) :=
  List.foldl_append _ _ _ _

/-- Step equation: a stopped scan ignores the element. -/
theorem stepElem_stop (now limit : Int) (st : IterState) (e : Option String)
    (hk : st.keepScrolling = false) : stepElem now limit st e = st := by
  simp [stepElem, hk]

/-- Step equation: an element without a `data-urn` attribute is skipped. -/
theorem stepElem_none (now limit : Int) (st : IterState)
    (hk : st.keepScrolling = true) : stepElem now limit st none = st := by
  simp [stepElem, hk]

/-- Step equation: an already-seen canonical URL is skipped. -/
theorem stepElem_seen (now limit : Int) (st : IterState) (urn : String)
    (hk : st.keepScrolling = true) (hs : cleanUrlOf urn ∈ st.seen) :
    stepElem now limit st (some urn) = st := by
  simp [stepElem, hk, hs]

/-- Step equation: an unseen element whose timestamp cannot be decoded is
added to the seen-set and otherwise skipped. -/
theorem stepElem_nodec (now limit : Int) (st : IterState) (urn : String)
    (hk : st.keepScrolling = true) (hs : cleanUrlOf urn ∉ st.seen)
    (hd : get_timestamp_from_urn urn = none) :
    stepElem now limit st (some urn)
      = { st with seen := cleanUrlOf urn :: st.seen, newFound := true } := by
  simp [stepElem, hk, hs, hd]

/-- Step equation: an unseen element within the retention window is added to
the seen-set and appended to the links. -/
theorem stepElem_within (now limit : Int) (st : IterState) (urn : String)
    (ts : Nat) (hk : st.keepScrolling = true) (hs : cleanUrlOf urn ∉ st.seen)
    (hd : get_timestamp_from_urn urn = some ts)
    (hage : now - (ts : Int) ≤ limit) :
    stepElem now limit st (some urn)
      = { st with
          seen := cleanUrlOf urn :: st.seen
          newFound := true
          links := st.links ++ [cleanUrlOf urn] } := by
  simp [stepElem, hk, hs, hd, hage]

/-- Step equation: the first unseen element older than the retention window
clears `keep_scrolling` (and is added to the seen-set but not to the links). -/
theorem stepElem_over (now limit : Int) (st : IterState) (urn : String)
    (ts : Nat) (hk : st.keepScrolling = true) (hs : cleanUrlOf urn ∉ st.seen)
    (hd : get_timestamp_from_urn urn = some ts)
    (hage : ¬ now - (ts : Int) ≤ limit) :
    stepElem now limit st (some urn)
      = { st with
          seen := cleanUrlOf urn :: st.seen
          newFound := true
          keepScrolling := false } := by
  simp [stepElem, hk, hs, hd, hage]

theorem stepElem_delta (now limit : Int) (st : IterState) (e : Option String) :
    (∀ x ∈ st.seen, x ∈ (stepElem now limit st e).seen) ∧
    ((stepElem now limit st e).links = st.links ∨
      ∃ u, u ∉ st.seen ∧ (stepElem now limit st e).links = st.links ++ [u] ∧
        u ∈ (stepElem now limit st e).seen) := by
  cases hk : st.keepScrolling with
  | false =>
    rw [stepElem_stop now limit st e hk]
    exact ⟨fun x hx => hx, Or.inl rfl⟩
  | true =>
    cases e with
    | none =>
      rw [stepElem_none now limit st hk]
      exact ⟨fun x hx => hx, Or.inl rfl⟩
    | some urn =>
      by_cases hs : cleanUrlOf urn ∈ st.seen
      · rw [stepElem_seen now limit st urn hk hs]
        exact ⟨fun x hx => hx, Or.inl rfl⟩
      · cases hd : get_timestamp_from_urn urn with
        | none =>
          rw [stepElem_nodec now limit st urn hk hs hd]
          exact ⟨fun x hx => List.mem_cons_of_mem _ hx, Or.inl rfl⟩
        | some ts =>
          by_cases hage : now - (ts : Int) ≤ limit
          · rw [stepElem_within now limit st urn ts hk hs hd hage]
            exact ⟨fun x hx => List.mem_cons_of_mem _ hx,
              Or.inr ⟨cleanUrlOf urn, hs, rfl, List.mem_cons_self _ _⟩⟩
          · rw [stepElem_over now limit st urn ts hk hs hd hage]
            exact ⟨fun x hx => List.mem_cons_of_mem _ hx, Or.inl rfl⟩

/-- Scan invariants, all at once: the seen-set only grows, the links only
grow, `links ⊆ seen` is preserved, `Nodup links` is preserved, and every link
present afterwards was either present before or was not in the initial
seen-set. -/
theorem processElems_spec (now limit : Int) :
    ∀ (l : List (Option String)) (st : IterState),
      (∀ x ∈ st.seen, x ∈ (processElems now limit l st).seen) ∧
      (∀ x ∈ st.links, x ∈ (processElems now limit l st).links) ∧
      ((∀ x ∈ st.links, x ∈ st.seen) →
        (∀ x ∈ (processElems now limit l st).links,
          x ∈ (processElems now limit l st).seen)) ∧
      ((∀ x ∈ st.links, x ∈ st.seen) → st.links.Nodup →
        (processElems now limit l st).links.Nodup) ∧
      (∀ x ∈ (processElems now limit l st).links, x ∈ st.links ∨ x ∉ st.seen) := by
  intro l
  induction l with
  | nil => exact fun st => ⟨fun x hx => hx, fun x hx => hx, fun h => h,
      fun _ hn => hn, fun x hx => Or.inl hx⟩
  | cons e rest ih =>
    intro st
    have hstep := stepElem_delta now limit st e
    set st1 := stepElem now limit st e with hst1
    have hrest := ih st1
    have hpe : processElems now limit (e :: rest) st
        = processElems now limit rest st1 := rfl
    rw [hpe]
    have hseen1 : ∀ x ∈ st.seen, x ∈ st1.seen := hstep.1
    have hlinks1 : ∀ x ∈ st.links, x ∈ st1.links := by
      rcases hstep.2 with h | ⟨u, _, h, _⟩
      · rw [h]; exact fun x hx => hx
      · rw [h]; exact fun x hx => List.mem_append_left _ hx
    have hsub1 : (∀ x ∈ st.links, x ∈ st.seen) → ∀ x ∈ st1.links, x ∈ st1.seen := by
      intro h x hx
      rcases hstep.2 with heq | ⟨u, _, heq, hu⟩
      · rw [heq] at hx
        exact hseen1 _ (h _ hx)
      · rw [heq] at hx
        rcases List.mem_append.1 hx with hx | hx
        · exact hseen1 _ (h _ hx)
        · rw [List.mem_singleton.1 hx]
          exact hu
    have hnd1 : (∀ x ∈ st.links, x ∈ st.seen) → st.links.Nodup → st1.links.Nodup := by
      intro h hn
      rcases hstep.2 with heq | ⟨u, hu, heq, _⟩
      · rw [heq]; exact hn
      · rw [heq]
        refine List.Nodup.append hn (List.nodup_singleton _) ?_
        intro x hx hx'
        rw [List.mem_singleton.1 hx'] at hx
        exact hu (h _ hx)
    refine ⟨fun x hx => hrest.1 _ (hseen1 _ hx),
      fun x hx => hrest.2.1 _ (hlinks1 _ hx),
      fun h => hrest.2.2.1 (hsub1 h),
      fun h hn => hrest.2.2.2.1 (hsub1 h) (hnd1 h hn),
      ?_⟩
    intro x hx
    rcases hrest.2.2.2.2 _ hx with hx1 | hx1
    · rcases hstep.2 with heq | ⟨u, hu, heq, _⟩
      · rw [heq] at hx1
        exact Or.inl hx1
      · rw [heq] at hx1
        rcases List.mem_append.1 hx1 with hx1 | hx1
        · exact Or.inl hx1
        · rw [List.mem_singleton.1 hx1]
          exact Or.inr hu
    · exact Or.inr (fun hxs => hx1 (hseen1 _ hxs))

/-- The same invariants lifted over the whole scroll loop: the returned links
are contained in the returned seen-set, are duplicate-free, the initial
seen-set survives into the returned seen-set, and every returned link was
either an initial link or was not initially seen. -/
theorem scanIters_spec (now limit : Int) :
    ∀ (iters : List (List (Option String))) (seen links : List String),
      (∀ x ∈ links, x ∈ seen) → links.Nodup →
      (∀ x ∈ (scanIters now limit iters seen links).1,
        x ∈ (scanIters now limit iters seen links).2) ∧
      (scanIters now limit iters seen links).1.Nodup ∧
      (∀ x ∈ seen, x ∈ (scanIters now limit iters seen links).2) ∧
      (∀ x ∈ (scanIters now limit iters seen links).1,
        x ∈ links ∨ x ∉ seen) := by
  intro iters
  induction iters with
  | nil =>
    intro seen links hsub hnd
    exact ⟨hsub, hnd, fun x hx => hx, fun x hx => Or.inl hx⟩
  | cons snap rest ih =>
    intro seen links hsub hnd
    show (∀ x ∈ (scanIters now limit (snap :: rest) seen links).1, _) ∧ _
    rw [scanIters]
    by_cases hemp : snap.isEmpty
    · rw [if_pos hemp]
      exact ⟨hsub, hnd, fun x hx => hx, fun x hx => Or.inl hx⟩
    · rw [if_neg hemp]
      have hpe := processElems_spec now limit snap ⟨seen, links, false, true⟩
      set st := processElems now limit snap ⟨seen, links, false, true⟩ with hst
      have hsub' : ∀ x ∈ st.links, x ∈ st.seen := hpe.2.2.1 hsub
      have hnd' : st.links.Nodup := hpe.2.2.2.1 hsub hnd
      have hmono : ∀ x ∈ seen, x ∈ st.seen := hpe.1
      have hnew : ∀ x ∈ st.links, x ∈ links ∨ x ∉ seen := hpe.2.2.2.2
      by_cases hks : st.keepScrolling = false
      · rw [if_pos hks]
        exact ⟨hsub', hnd', hmono, hnew⟩
      · rw [if_neg hks]
        by_cases hnf : st.newFound = false
        · rw [if_pos hnf]
          exact ⟨hsub', hnd', hmono, hnew⟩
        · rw [if_neg hnf]
          have hrest := ih st.seen st.links hsub' hnd'
          refine ⟨hrest.1, hrest.2.1, fun x hx => hrest.2.2.1 _ (hmono _ hx), ?_⟩
          intro x hx
          rcases hrest.2.2.2 _ hx with hx1 | hx1
          · rcases hnew _ hx1 with h | h
            · exact Or.inl h
            · exact Or.inr h
          · exact Or.inr (fun hxs => hx1 (hmono _ hxs))

theorem get_post_links_fst (now limit : Int)
    (setEnum : List String → List String)
    (iters : List (List (Option String))) (seen0 : List String) :
    (get_post_links now limit setEnum iters seen0).1
      = setEnum (scanIters now limit iters seen0 []).1 := rfl

theorem get_post_links_snd (now limit : Int)
    (setEnum : List String → List String)
    (iters : List (List (Option String))) (seen0 : List String) :
    (get_post_links now limit setEnum iters seen0).2
      = (scanIters now limit iters seen0 []).2 := rfl

/-! ## Per-target pipeline (src/main.py, main)

`main`'s per-target body (lines 117-182) is a `try`/`finally` with no
`except`: load the checkpoint (`load_state_json`) or scrape the post links,
skip the target when none are found, load the existing results and their
`profile_url` set, then per post: extract commenter URLs, subtract the known
set, build records (headline from enrichment when enabled — enrichment
itself never raises, every per-URL failure degrades to a sentinel record, so
it is a total function `headlineOf`), extend the in-memory results and known
set, and append to the output file when incremental saving is on.  The
`finally` persists batch-mode results (overwriting) when non-empty and then
removes the checkpoint file.  The browser-produced observations (post links
scraped, commenter URLs per post) are inputs of the model; a raised
exception is `Except.error`.  Output and checkpoint files are per-target
(named after the profile), modelled as a per-target `Store`. -/

structure CommenterRecord where
  profile_url : String
  headline : String
  deriving DecidableEq, Repr

/-- The `profile_url` column of a record list. -/
def keysOf (l : List CommenterRecord) : List String := l.map (·.profile_url)

/-- A target's persisted files: the output file (absent ≡ empty list) and the
posts checkpoint state file. -/
structure Store where
  output : List CommenterRecord
  checkpoint : Option (List String)
  deriving DecidableEq, Repr

/-- A target's run inputs: the observations the browser would produce
(`scrape` = `get_post_links` outcome, `extract p` = `get_commenters_from_post`
outcome for post `p`, `headlineOf u` = the headline string enrichment ends up
with for `u`) and the configuration flags. -/
structure TargetSpec where
  scrape : Except Unit (List String)
  extract : String → Except Unit (List String)
  scrapeHeadlines : Bool
  incrementalSave : Bool
  headlineOf : String → String

/-- In-flight state of the post loop: `all_commenter_results`,
`all_commenter_urls`, the current content of the output file, and whether an
exception has escaped the loop. -/
structure LoopState where
  results : List CommenterRecord
  known : List String
  fileOut : List CommenterRecord
  raised : Bool
  deriving DecidableEq, Repr

/-- Records built for a batch of new commenter URLs (main.py lines 159-163):
real/sentinel headline text when enrichment is on, empty headline otherwise. -/
def newRecordsFor (t : TargetSpec) (urls : List String) : List CommenterRecord :=
  urls.map (fun u =>
    { profile_url := u
      headline := if t.scrapeHeadlines then t.headlineOf u else "" })

/-- One iteration of the post loop (main.py lines 147-171).  There is no
per-post exception handler: once an extraction has raised, the guard makes
the remaining iterations no-ops, modelling the exception escaping the loop
into the target's `finally`. -/
def stepPost (t : TargetSpec) (st : LoopState) (p : String) : LoopState :=
  if st.raised then st
  else
    match t.extract p with
    | Except.error _ => { st with raised := true }
    | Except.ok urls =>
      let nw := urls.dedup.filter (fun u => decide (u ∉ st.known))
      if nw.isEmpty then st
      else
        { st with
          results := st.results ++ newRecordsFor t nw
          known := st.known ++ nw
          fileOut :=
            if t.incrementalSave then st.fileOut ++ newRecordsFor t nw
            else st.fileOut }

/-- The post loop: fold `stepPost` over the posts in order. -/
def processPosts (t : TargetSpec) (posts : List String) (st : LoopState) :
    LoopState :=
  posts.foldl (stepPost t) st

/-- The loop state at entry of the post loop (main.py lines 140-143): results
and known set loaded from the existing output, file untouched. -/
def initLoopState (output0 : List CommenterRecord) : LoopState :=
  { results := output0, known := keysOf output0, fileOut := output0
    raised := false }

/-- The `try` body of the per-target pipeline (main.py lines 126-171): use
the checkpointed post list when present, otherwise scrape one (a raise there
reaches the `finally` with empty in-memory results — second component
`true`); an empty scraped list skips the target (`continue`). -/
def runTargetCore (t : TargetSpec) (s : Store) : LoopState × Bool :=
  match s.checkpoint with
  | some posts => (processPosts t posts (initLoopState s.output), false)
  | none =>
    match t.scrape with
    | Except.error _ =>
      ({ results := [], known := [], fileOut := s.output, raised := false }, true)
    | Except.ok posts =>
      if posts.isEmpty then
        ({ results := [], known := [], fileOut := s.output, raised := false }, false)
      else (processPosts t posts (initLoopState s.output), false)

/-- The target's `finally` (main.py lines 173-182): in batch mode overwrite
the output with the accumulated results when non-empty, then remove the
checkpoint file (a no-op when absent). -/
def finalizeTarget (t : TargetSpec) (st : LoopState) : Store :=
  { output :=
      if !t.incrementalSave && !st.results.isEmpty then st.results else st.fileOut
    checkpoint := none }

/-- One target's full pipeline; the second component tells whether an
exception escaped it (after the `finally` ran). -/
def runTarget (t : TargetSpec) (s : Store) : Store × Bool :=
  (finalizeTarget t (runTargetCore t s).1,
   (runTargetCore t s).2 || (runTargetCore t s).1.raised)

/-- The loop over targets (main.py line 117).  There is no per-target
exception handler inside the loop: a raised target ends the loop (the
exception is caught by the run-level handler, main.py lines 185-189), so the
remaining targets keep their stores untouched and are marked unprocessed
(`false`). -/
def runTargets : List (TargetSpec × Store) → List (Store × Bool)
  | [] => []
  | q :: rest =>
    if (runTarget q.1 q.2).2 = true then
      ((runTarget q.1 q.2).1, true) :: rest.map (fun p => (p.2, false))
    else ((runTarget q.1 q.2).1, true) :: runTargets rest

/-- `u` was observed as a commenter of one of `posts` under `t`'s
observations. -/
def observes (t : TargetSpec) (posts : List String) (u : String) : Prop :=
  ∃ p ∈ posts, ∃ urls, t.extract p = Except.ok urls ∧ u ∈ urls

/-- Once an exception has escaped, the rest of the post loop does nothing. -/
theorem processPosts_raised (t : TargetSpec) (posts : List String)
    (st : LoopState) (h : st.raised = true) : processPosts t posts st = st := by
  induction posts with
  | nil => rfl
  | cons p rest ih =>
    show processPosts t rest (stepPost t st p) = st
    rw [show stepPost t st p = st from by simp [stepPost, h]]
    exact ih

/-- Splitting the post loop at any point. -/
theorem processPosts_append (t : TargetSpec) (l₁ l₂ : List String)
    (st : LoopState) :
    processPosts t (l₁ ++ l₂) st = processPosts t l₂ (processPosts t l₁ st) :=
  List.foldl_append _ _ _ _

theorem keysOf_newRecordsFor (t : TargetSpec) (urls : List String) :
    keysOf (newRecordsFor t urls) = urls := by
  show List.map _ (List.map _ urls) = urls
  rw [List.map_map]
  exact List.map_id' urls

theorem keysOf_append (l₁ l₂ : List CommenterRecord) :
    keysOf (l₁ ++ l₂) = keysOf l₁ ++ keysOf l₂ := List.map_append _ _ _

/-- Effect of one successful post iteration: no exception, the known set
still mirrors the result keys, the result keys gain exactly this post's
commenter URLs (minus those already known), key-uniqueness is preserved, and
the file gains the same records in incremental mode only. -/
theorem stepPost_ok_spec (t : TargetSpec) (st : LoopState) (p : String)
    (urls : List String) (hr : st.raised = false)
    (hex : t.extract p = Except.ok urls)
    (hkn : ∀ u, u ∈ st.known ↔ u ∈ keysOf st.results) :
    (stepPost t st p).raised = false ∧
    (∀ u, u ∈ (stepPost t st p).known ↔ u ∈ keysOf (stepPost t st p).results) ∧
    (∀ u, u ∈ keysOf (stepPost t st p).results ↔
      u ∈ keysOf st.results ∨ u ∈ urls) ∧
    ((keysOf st.results).Nodup → (keysOf (stepPost t st p).results).Nodup) ∧
    (∃ added, (stepPost t st p).results = st.results ++ added ∧
      (stepPost t st p).fileOut =
        (if t.incrementalSave then st.fileOut ++ added else st.fileOut)) := by
  have hstep : stepPost t st p =
      (if (urls.dedup.filter (fun u => decide (u ∉ st.known))).isEmpty then st
       else
        { st with
          results := st.results ++ newRecordsFor t
            (urls.dedup.filter (fun u => decide (u ∉ st.known)))
          known := st.known ++ urls.dedup.filter (fun u => decide (u ∉ st.known))
          fileOut :=
            if t.incrementalSave then
              st.fileOut ++ newRecordsFor t
                (urls.dedup.filter (fun u => decide (u ∉ st.known)))
            else st.fileOut }) := by
    simp [stepPost, hr, hex]
  set nw := urls.dedup.filter (fun u => decide (u ∉ st.known)) with hnwdef
  by_cases hemp : nw.isEmpty
  · have hnil : nw = [] := List.isEmpty_iff.1 hemp
    have hsub : ∀ u ∈ urls, u ∈ keysOf st.results := by
      intro u hu
      have h1 : ∀ a ∈ urls.dedup, ¬(decide (a ∉ st.known) = true) := by
        rw [hnwdef] at hnil
        exact List.filter_eq_nil_iff.1 hnil
      have h2 := h1 u (List.mem_dedup.2 hu)
      rw [decide_eq_true_iff] at h2
      exact (hkn u).1 (not_not.1 h2)
    rw [hstep, if_pos hemp]
    refine ⟨hr, hkn, ?_, fun hnd => hnd, ⟨[], by simp⟩⟩
    intro u
    constructor
    · exact fun hu => Or.inl hu
    · rintro (hu | hu)
      · exact hu
      · exact hsub u hu
  · rw [hstep, if_neg hemp]
    have hnwurls : ∀ u ∈ nw, u ∈ urls := by
      intro u hu
      rw [hnwdef] at hu
      exact List.mem_dedup.1 (List.mem_filter.1 hu).1
    have hnwnot : ∀ u ∈ nw, u ∉ st.known := by
      intro u hu
      rw [hnwdef] at hu
      have := (List.mem_filter.1 hu).2
      rwa [decide_eq_true_iff] at this
    have hnwmem : ∀ u ∈ urls, u ∉ st.known → u ∈ nw := by
      intro u hu hk
      rw [hnwdef]
      exact List.mem_filter.2 ⟨List.mem_dedup.2 hu, decide_eq_true hk⟩
    have hnwnd : nw.Nodup := by
      rw [hnwdef]
      exact (urls.nodup_dedup).filter _
    have hkeys : keysOf (st.results ++ newRecordsFor t nw)
        = keysOf st.results ++ nw := by
      rw [keysOf_append, keysOf_newRecordsFor]
    refine ⟨hr, ?_, ?_, ?_, ?_⟩
    · intro u
      show u ∈ st.known ++ nw ↔ u ∈ keysOf (st.results ++ newRecordsFor t nw)
      rw [List.mem_append, hkeys, List.mem_append, hkn u]
    · intro u
      show u ∈ keysOf (st.results ++ newRecordsFor t nw) ↔ _
      rw [hkeys, List.mem_append]
      constructor
      · rintro (hu | hu)
        · exact Or.inl hu
        · exact Or.inr (hnwurls u hu)
      · rintro (hu | hu)
        · exact Or.inl hu
        · by_cases hk : u ∈ st.known
          · exact Or.inl ((hkn u).1 hk)
          · exact Or.inr (hnwmem u hu hk)
    · intro hnd
      show (keysOf (st.results ++ newRecordsFor t nw)).Nodup
      rw [hkeys]
      refine List.Nodup.append hnd hnwnd ?_
      intro u hu1 hu2
      exact hnwnot u hu2 ((hkn u).2 hu1)
    · exact ⟨newRecordsFor t nw, rfl, rfl⟩

/-- Effect of the whole post loop when every extraction succeeds. -/
theorem processPosts_spec (t : TargetSpec) :
    ∀ (posts : List String) (st : LoopState),
      (∀ p ∈ posts, ∃ urls, t.extract p = Except.ok urls) →
      st.raised = false →
      (∀ u, u ∈ st.known ↔ u ∈ keysOf st.results) →
      (processPosts t posts st).raised = false ∧
      (∀ u, u ∈ (processPosts t posts st).known ↔
        u ∈ keysOf (processPosts t posts st).results) ∧
      (∀ u, u ∈ keysOf (processPosts t posts st).results ↔
        u ∈ keysOf st.results ∨ observes t posts u) ∧
      ((keysOf st.results).Nodup →
        (keysOf (processPosts t posts st).results).Nodup) ∧
      (∃ added, (processPosts t posts st).results = st.results ++ added ∧
        (processPosts t posts st).fileOut =
          (if t.incrementalSave then st.fileOut ++ added else st.fileOut)) := by
  intro posts
  induction posts with
  | nil =>
    intro st _ hr hkn
    refine ⟨hr, hkn, ?_, fun hnd => hnd, ⟨[], by simp [processPosts]⟩⟩
    intro u
    simp [processPosts, observes]
  | cons p rest ih =>
    intro st hok hr hkn
    obtain ⟨urls, hex⟩ := hok p (List.mem_cons_self p rest)
    have hstep := stepPost_ok_spec t st p urls hr hex hkn
    have hpe : processPosts t (p :: rest) st
        = processPosts t rest (stepPost t st p) := rfl
    have hrest := ih (stepPost t st p) (fun q hq => hok q (List.mem_cons_of_mem _ hq))
      hstep.1 hstep.2.1
    rw [hpe]
    have hobs : ∀ u, observes t (p :: rest) u ↔ (u ∈ urls ∨ observes t rest u) := by
      intro u
      constructor
      · rintro ⟨q, hq, urls', hex', hu⟩
        rcases List.mem_cons.1 hq with h | h
        · subst h
          rw [hex] at hex'
          have hequ : urls' = urls := (Except.ok.inj hex').symm
          exact Or.inl (hequ ▸ hu)
        · exact Or.inr ⟨q, h, urls', hex', hu⟩
      · rintro (hu | ⟨q, hq, urls', hex', hu⟩)
        · exact ⟨p, List.mem_cons_self p rest, urls, hex, hu⟩
        · exact ⟨q, List.mem_cons_of_mem _ hq, urls', hex', hu⟩
    refine ⟨hrest.1, hrest.2.1, ?_, ?_, ?_⟩
    · intro u
      rw [hrest.2.2.1 u, hstep.2.2.1 u, hobs u, or_assoc]
    · intro hnd
      exact hrest.2.2.2.1 (hstep.2.2.2.1 hnd)
    · obtain ⟨a1, ha1, hf1⟩ := hstep.2.2.2.2
      obtain ⟨a2, ha2, hf2⟩ := hrest.2.2.2.2
      refine ⟨a1 ++ a2, by rw [ha2, ha1, List.append_assoc], ?_⟩
      by_cases hinc : t.incrementalSave
      · rw [if_pos hinc] at hf1 hf2 ⊢
        rw [hf2, hf1, List.append_assoc]
      · rw [if_neg hinc] at hf1 hf2 ⊢
        rw [hf2, hf1]

/-- When every observed commenter URL is already known, the post loop is a
no-op. -/
theorem processPosts_nonew (t : TargetSpec) :
    ∀ (posts : List String) (st : LoopState),
      (∀ p ∈ posts, ∃ urls, t.extract p = Except.ok urls ∧
        ∀ u ∈ urls, u ∈ st.known) →
      st.raised = false →
      processPosts t posts st = st := by
  intro posts
  induction posts with
  | nil => intro st _ _; rfl
  | cons p rest ih =>
    intro st hok hr
    obtain ⟨urls, hex, hsub⟩ := hok p (List.mem_cons_self p rest)
    have hnil : urls.dedup.filter (fun u => decide (u ∉ st.known)) = [] := by
      refine List.filter_eq_nil_iff.2 ?_
      intro a ha
      rw [decide_eq_true_iff, not_not]
      exact hsub a (List.mem_dedup.1 ha)
    have hstep0 : stepPost t st p =
        (if (urls.dedup.filter (fun u => decide (u ∉ st.known))).isEmpty then st
         else
          { st with
            results := st.results ++ newRecordsFor t
              (urls.dedup.filter (fun u => decide (u ∉ st.known)))
            known := st.known ++ urls.dedup.filter (fun u => decide (u ∉ st.known))
            fileOut :=
              if t.incrementalSave then
                st.fileOut ++ newRecordsFor t
                  (urls.dedup.filter (fun u => decide (u ∉ st.known)))
              else st.fileOut }) := by
      simp [stepPost, hr, hex]
    have hstep : stepPost t st p = st := by
      rw [hstep0, hnil]
      rfl
    show processPosts t rest (stepPost t st p) = st
    rw [hstep]
    exact ih st (fun q hq => hok q (List.mem_cons_of_mem _ hq)) hr

/-- Combined effect of post loop plus `finally` on the output file: whatever
the persistence mode, a full (exception-free) run leaves the output holding
records whose keys are the existing keys plus the observed commenter URLs,
with key-uniqueness preserved. -/
theorem runLoop_output_spec (t : TargetSpec) (output0 : List CommenterRecord)
    (P : List String)
    (hok : ∀ p ∈ P, ∃ urls, t.extract p = Except.ok urls) :
    ((keysOf output0).Nodup →
      (keysOf (finalizeTarget t
        (processPosts t P (initLoopState output0))).output).Nodup) ∧
    (∀ u, u ∈ keysOf (finalizeTarget t
        (processPosts t P (initLoopState output0))).output ↔
      u ∈ keysOf output0 ∨ observes t P u) := by
  have hspec := processPosts_spec t P (initLoopState output0) hok rfl
    (fun u => Iff.rfl)
  obtain ⟨added, hres, hfile⟩ := hspec.2.2.2.2
  set st1 := processPosts t P (initLoopState output0) with hst1
  have hres' : st1.results = output0 ++ added := hres
  have hnd1 : (keysOf output0).Nodup → (keysOf st1.results).Nodup :=
    hspec.2.2.2.1
  have hchar : ∀ u, u ∈ keysOf st1.results ↔
      u ∈ keysOf output0 ∨ observes t P u := hspec.2.2.1
  cases hinc : t.incrementalSave with
  | true =>
    have hfile' : st1.fileOut = st1.results := by
      have h := hfile
      rw [hinc, if_pos rfl] at h
      rw [h, hres']
      rfl
    have hout : (finalizeTarget t st1).output = st1.results := by
      simp [finalizeTarget, hinc, hfile']
    rw [hout]
    exact ⟨hnd1, hchar⟩
  | false =>
    cases hemp : st1.results.isEmpty with
    | true =>
      have hnil : st1.results = [] := List.isEmpty_iff.1 hemp
      have hout : (finalizeTarget t st1).output = output0 := by
        have h := hfile
        rw [hinc, if_neg Bool.false_ne_true] at h
        have h0 : st1.fileOut = output0 := h
        simp [finalizeTarget, hinc, hemp, h0]
      rw [hout]
      refine ⟨fun hnd => hnd, ?_⟩
      intro u
      constructor
      · exact fun h => Or.inl h
      · rintro (h | h)
        · exact h
        · have := (hchar u).2 (Or.inr h)
          rw [hnil] at this
          exact absurd this (List.not_mem_nil u)
    | false =>
      have hout : (finalizeTarget t st1).output = st1.results := by
        simp [finalizeTarget, hinc, hemp]
      rw [hout]
      exact ⟨hnd1, hchar⟩

/-! ## C7: exactly one record per profile URL after a full run -/

/-- C7: assuming the existing output has at most one record per
`profile_url`, then after a full per-target run (post list from the
checkpoint or freshly scraped; every extraction succeeding) in either
persistence mode, the persisted output has exactly one record per unique
`profile_url`, and its set of URLs is the existing set united with all
commenter URLs observed this run. -/
theorem C7_merge_invariant :
    ∀ (t : TargetSpec) (s : Store) (P : List String),
      (s.checkpoint = some P ∨ s.checkpoint = none ∧ t.scrape = Except.ok P) →
      (∀ p ∈ P, ∃ urls, t.extract p = Except.ok urls) →
      (keysOf s.output).Nodup →
      (keysOf (runTarget t s).1.output).Nodup ∧
      (∀ u, u ∈ keysOf (runTarget t s).1.output ↔
        u ∈ keysOf s.output ∨ observes t P u) := by
  intro t s P hck hok hnd
  have hrt : (runTarget t s).1 = finalizeTarget t (runTargetCore t s).1 := rfl
  rcases hck with hck | ⟨hck, hscr⟩
  · have hcore : runTargetCore t s
        = (processPosts t P (initLoopState s.output), false) := by
      simp [runTargetCore, hck]
    rw [hrt, hcore]
    have h := runLoop_output_spec t s.output P hok
    exact ⟨h.1 hnd, h.2⟩
  · cases hPemp : P.isEmpty with
    | true =>
      have hPnil : P = [] := List.isEmpty_iff.1 hPemp
      have hcore : runTargetCore t s
          = ({ results := [], known := [], fileOut := s.output
               raised := false }, false) := by
        simp [runTargetCore, hck, hscr, hPemp]
      rw [hrt, hcore]
      have hout : (finalizeTarget t
          { results := [], known := [], fileOut := s.output
            raised := false } : Store).output = s.output := by
        simp [finalizeTarget]
      constructor
      · rw [hout]
        exact hnd
      · intro u
        rw [hout]
        constructor
        · exact fun h => Or.inl h
        · rintro (h | h)
          · exact h
          · obtain ⟨q, hq, _⟩ := h
            rw [hPnil] at hq
            exact absurd hq (List.not_mem_nil q)
    | false =>
      have hcore : runTargetCore t s
          = (processPosts t P (initLoopState s.output), false) := by
        simp [runTargetCore, hck, hscr, hPemp]
      rw [hrt, hcore]
      have h := runLoop_output_spec t s.output P hok
      exact ⟨h.1 hnd, h.2⟩

/-- C7 fixture: two posts with overlapping commenter sets `{A,B}`, `{B,C}`
against an empty existing output (batch mode). -/
def tC7fix : TargetSpec :=
  ⟨Except.ok [], fun p => if p = "P1" then Except.ok ["A", "B"]
    else Except.ok ["B", "C"], false, false, fun _ => ""⟩

def sC7fix : Store := ⟨[], some ["P1", "P2"]⟩

/-- Witness for C7 at the overlapping-commenters fixture: the final output
keys are duplicate-free and contain the commenter `"C"` observed on the
second post. -/
theorem C7_merge_invariant_witness :
    (keysOf (runTarget tC7fix sC7fix).1.output).Nodup ∧
    "C" ∈ keysOf (runTarget tC7fix sC7fix).1.output := by
  have hok : ∀ p ∈ ["P1", "P2"], ∃ urls, tC7fix.extract p = Except.ok urls := by
    intro p hp
    rcases List.mem_cons.1 hp with h | h
    · subst h
      exact ⟨["A", "B"], rfl⟩
    · rcases List.mem_cons.1 h with h2 | h2
      · subst h2
        exact ⟨["B", "C"], rfl⟩
      · exact absurd h2 (List.not_mem_nil p)
  have h := C7_merge_invariant tC7fix sC7fix ["P1", "P2"] (Or.inl rfl) hok
    (by decide)
  exact ⟨h.1, (h.2 "C").2 (Or.inr ⟨"P2", by decide, ["B", "C"], rfl, by decide⟩)⟩

/-! ## C9: the incremental pipeline is idempotent -/

/-- C9: with incremental saving, the same observations (scraped post list
and per-post commenter sets), and the output file kept in place, running the
per-target pipeline a second time appends nothing: the final output equals
the output after the first run (every URL observed in the second run is
already in the loaded existing set). -/
theorem C9_idempotent :
    ∀ (t : TargetSpec) (s : Store) (P : List String),
      t.incrementalSave = true →
      s.checkpoint = none →
      t.scrape = Except.ok P →
      (∀ p ∈ P, ∃ urls, t.extract p = Except.ok urls) →
      (runTarget t (runTarget t s).1).1.output = (runTarget t s).1.output := by
  intro t s P hinc hck hscr hok
  have hck1 : (runTarget t s).1.checkpoint = none := rfl
  cases hPemp : P.isEmpty with
  | true =>
    have hcore2 : runTargetCore t (runTarget t s).1
        = ({ results := [], known := [], fileOut := (runTarget t s).1.output
             raised := false }, false) := by
      simp [runTargetCore, hck1, hscr, hPemp]
    have hrt : (runTarget t (runTarget t s).1).1
        = finalizeTarget t (runTargetCore t (runTarget t s).1).1 := rfl
    rw [hrt, hcore2]
    simp [finalizeTarget]
  | false =>
    -- the first run's output keys contain every observed URL
    have hcore1 : runTargetCore t s
        = (processPosts t P (initLoopState s.output), false) := by
      simp [runTargetCore, hck, hscr, hPemp]
    have hrt1 : (runTarget t s).1 = finalizeTarget t (runTargetCore t s).1 := rfl
    have hchar := (runLoop_output_spec t s.output P hok).2
    have hsup : ∀ u, observes t P u → u ∈ keysOf (runTarget t s).1.output := by
      intro u hu
      rw [hrt1, hcore1]
      exact (hchar u).2 (Or.inr hu)
    -- the second run's post loop sees everything as already known
    have hnonew : processPosts t P (initLoopState (runTarget t s).1.output)
        = initLoopState (runTarget t s).1.output := by
      refine processPosts_nonew t P _ ?_ rfl
      intro p hp
      obtain ⟨urls, hex⟩ := hok p hp
      exact ⟨urls, hex, fun u hu => hsup u ⟨p, hp, urls, hex, hu⟩⟩
    have hcore2 : runTargetCore t (runTarget t s).1
        = (initLoopState (runTarget t s).1.output, false) := by
      simp [runTargetCore, hck1, hscr, hPemp, hnonew]
    have hrt2 : (runTarget t (runTarget t s).1).1
        = finalizeTarget t (runTargetCore t (runTarget t s).1).1 := rfl
    rw [hrt2, hcore2]
    simp [finalizeTarget, initLoopState, hinc]

/-- C9 fixture: one post with one commenter, incremental saving. -/
def tC9fix : TargetSpec :=
  ⟨Except.ok ["P1"], fun _ => Except.ok ["u1"], false, true, fun _ => ""⟩

/-- Witness for C9: running the fixture pipeline twice from an empty store
changes nothing on the second run. -/
theorem C9_idempotent_witness :
    (runTarget tC9fix (runTarget tC9fix ⟨[], none⟩).1).1.output
      = (runTarget tC9fix ⟨[], none⟩).1.output :=
  C9_idempotent tC9fix ⟨[], none⟩ ["P1"] rfl rfl rfl
    (fun _ _ => ⟨["u1"], rfl⟩)

/-! ## C8: the finally block always persists and clears the checkpoint -/

/-- C8: whatever happens to a target (success, skip because no posts, or a
raised exception), the pipeline's `finally` leaves the checkpoint cleared —
clearing an absent checkpoint included, since the model's `finalizeTarget`
runs on every path — and in batch mode the accumulated results are persisted
(before the checkpoint removal in program order) whenever non-empty. -/
theorem C8_finalize_always :
    ∀ (t : TargetSpec) (s : Store),
      (runTarget t s).1.checkpoint = none ∧
      (t.incrementalSave = false →
        (runTargetCore t s).1.results.isEmpty = false →
        (runTarget t s).1.output = (runTargetCore t s).1.results) := by
  intro t s
  refine ⟨rfl, ?_⟩
  intro hinc hne
  show (finalizeTarget t (runTargetCore t s).1).output = _
  simp [finalizeTarget, hinc, hne]

/-- C8 fixture: a target whose run accumulates one record in batch mode. -/
def tC8fix : TargetSpec :=
  ⟨Except.ok ["P1"], fun _ => Except.ok ["w"], false, false, fun _ => ""⟩

/-- Witness for C8 at the fixture: checkpoint cleared (it was present) and
the accumulated batch results persisted. -/
theorem C8_finalize_always_witness :
    (runTarget tC8fix ⟨[], some ["P1"]⟩).1.checkpoint = none ∧
    (runTarget tC8fix ⟨[], some ["P1"]⟩).1.output
      = (runTargetCore tC8fix ⟨[], some ["P1"]⟩).1.results :=
  ⟨(C8_finalize_always tC8fix ⟨[], some ["P1"]⟩).1,
   (C8_finalize_always tC8fix ⟨[], some ["P1"]⟩).2 rfl (by decide)⟩

/-! ## C3: a post exception is NOT caught per post -/

/-- C3 fixture: the second of three checkpointed posts raises during
extraction; the third would contribute a commenter. -/
def tC3fix : TargetSpec :=
  ⟨Except.ok [], fun q => if q = "B1" then Except.error () else Except.ok ["b"],
   false, false, fun _ => ""⟩

def sC3fix : Store := ⟨[], some ["B1", "B2"]⟩

/-- C3 counterexample: extraction raises on post `"B1"` (index 0); the claim
says post `"B2"` is still processed, but the run aborts with the exception
(`true`) and the commenter `"b"` that `"B2"` would have contributed is absent
from the final output. -/
theorem C3_counterexample :
    (runTarget tC3fix sC3fix).2 = true ∧
    tC3fix.extract "B2" = Except.ok ["b"] ∧
    "b" ∉ keysOf (runTarget tC3fix sC3fix).1.output :=
  ⟨by decide, rfl, by decide⟩

/-- C3 (amended): there is no per-post exception handler.  An exception
raised while extracting one post's commenters propagates out of the post
loop: the posts after it (`rest`, on which the result does not depend) are
not processed, the target's `finally` still runs (persisting batch results
accumulated from the earlier posts and clearing the checkpoint), and the
exception escapes the target (`true`), ending the run. -/
theorem C3_post_exception_aborts_target :
    ∀ (t : TargetSpec) (s : Store) (pre : List String) (p : String)
      (rest : List String),
      s.checkpoint = some (pre ++ p :: rest) →
      (processPosts t pre (initLoopState s.output)).raised = false →
      t.extract p = Except.error () →
      runTarget t s
        = (finalizeTarget t
            { processPosts t pre (initLoopState s.output) with raised := true },
           true) := by
  intro t s pre p rest hck hpre hex
  have hcore : runTargetCore t s
      = (processPosts t (pre ++ p :: rest) (initLoopState s.output), false) := by
    simp [runTargetCore, hck]
  have hloop : processPosts t (pre ++ p :: rest) (initLoopState s.output)
      = { processPosts t pre (initLoopState s.output) with raised := true } := by
    rw [show pre ++ p :: rest = (pre ++ [p]) ++ rest by simp,
      processPosts_append, processPosts_append]
    rw [show processPosts t [p] (processPosts t pre (initLoopState s.output))
        = stepPost t (processPosts t pre (initLoopState s.output)) p from rfl]
    rw [show stepPost t (processPosts t pre (initLoopState s.output)) p
        = { processPosts t pre (initLoopState s.output) with raised := true }
        from by simp [stepPost, hpre, hex]]
    exact processPosts_raised t rest _ rfl
  have hrt : runTarget t s
      = (finalizeTarget t (runTargetCore t s).1,
         (runTargetCore t s).2 || (runTargetCore t s).1.raised) := rfl
  rw [hrt, hcore, hloop]
  rfl

/-- Witness for C3 (amended): with posts `["A0", "A1", "A2"]` and extraction
raising on `"A1"`, the run equals the finalization of the state after
`"A0"` alone, flagged as raised. -/
def tC3wfix : TargetSpec :=
  ⟨Except.ok [], fun q => if q = "A1" then Except.error () else Except.ok ["a"],
   false, false, fun _ => ""⟩

def sC3wfix : Store := ⟨[], some ["A0", "A1", "A2"]⟩

theorem C3_post_exception_aborts_target_witness :
    runTarget tC3wfix sC3wfix
      = (finalizeTarget tC3wfix
          { processPosts tC3wfix ["A0"] (initLoopState []) with raised := true },
         true) :=
  C3_post_exception_aborts_target tC3wfix sC3wfix ["A0"] "A1" ["A2"]
    rfl (by decide) rfl

/-! ## C4: a target failure is NOT isolated to that target -/

/-- C4 fixtures: a first target whose post-link scraping raises, and a
second healthy target that would produce a record if processed. -/
def tC4bad : TargetSpec :=
  ⟨Except.error (), fun _ => Except.ok [], false, false, fun _ => ""⟩

def sC4bad : Store := ⟨[], none⟩

def tC4good : TargetSpec :=
  ⟨Except.ok ["R1"], fun _ => Except.ok ["d"], false, false, fun _ => ""⟩

def sC4good : Store := ⟨[⟨"e", ""⟩], none⟩

/-- C4 counterexample: target 0 raises; the claim says target 1 is still
processed, but the run ends: target 1's store is returned untouched and
marked unprocessed, even though processing it alone would have changed its
output. -/
theorem C4_counterexample :
    runTargets [(tC4bad, sC4bad), (tC4good, sC4good)]
      = [(⟨[], none⟩, true), (sC4good, false)] ∧
    (runTarget tC4good sC4good).1.output ≠ sC4good.output :=
  ⟨by decide, by decide⟩

/-- C4 (amended): when the pipeline of the target at index `i` raises (and
the targets before it did not), the failure is caught and reported only at
the run level: the targets before `i` are processed normally, target `i`'s
own `finally` still runs, and NO target after `i` is processed — their
stores are untouched. -/
theorem C4_target_failure_aborts_run :
    ∀ (pre : List (TargetSpec × Store)) (t : TargetSpec) (s : Store)
      (rest : List (TargetSpec × Store)),
      (∀ q ∈ pre, (runTarget q.1 q.2).2 = false) →
      (runTarget t s).2 = true →
      runTargets (pre ++ (t, s) :: rest)
        = pre.map (fun q => ((runTarget q.1 q.2).1, true))
          ++ ((runTarget t s).1, true) :: rest.map (fun p => (p.2, false)) := by
  intro pre
  induction pre with
  | nil =>
    intro t s rest _ hts
    show runTargets ((t, s) :: rest) = _
    rw [runTargets, if_pos hts]
    rfl
  | cons q pre' ih =>
    intro t s rest hpre hts
    have hq : (runTarget q.1 q.2).2 = false := hpre q (List.mem_cons_self q pre')
    show runTargets (q :: (pre' ++ (t, s) :: rest)) = _
    rw [runTargets, if_neg (by rw [hq]; exact Bool.false_ne_true)]
    rw [ih t s rest (fun r hr => hpre r (List.mem_cons_of_mem _ hr)) hts]
    rfl

/-- Witness for C4 (amended): the concrete two-target run of the
counterexample fixtures, derived from the general theorem. -/
theorem C4_target_failure_aborts_run_witness :
    runTargets [(tC4bad, sC4bad), (tC4good, sC4good)]
      = [((runTarget tC4bad sC4bad).1, true), (sC4good, false)] := by
  have h := C4_target_failure_aborts_run [] tC4bad sC4bad [(tC4good, sC4good)]
    (fun q hq => absurd hq (List.not_mem_nil q)) (by decide)
  simpa using h

/-! ## C5: no duplicates, but discovery order is not preserved -/

/-- C5 counterexample: a run discovering two within-window posts in the order
`activity:1`, `activity:2`, under the set-enumeration order `revEnum` (which
is a possible iteration order of a CPython `set` of strings, whose hashing is
randomized per process — see `goodEnum_revEnum`), returns the two links in
the opposite of discovery order: `list(set(post_links))` does not preserve
discovery order. -/
theorem C5_counterexample :
    (get_post_links 10000 10000 revEnum
        [[some "activity:1", some "activity:2"]] []).1
      = ["https://www.linkedin.com/feed/update/urn:li:activity:2/",
         "https://www.linkedin.com/feed/update/urn:li:activity:1/"] ∧
    (scanIters 10000 10000 [[some "activity:1", some "activity:2"]] [] []).1
      = ["https://www.linkedin.com/feed/update/urn:li:activity:1/",
         "https://www.linkedin.com/feed/update/urn:li:activity:2/"] ∧
    (get_post_links 10000 10000 revEnum
        [[some "activity:1", some "activity:2"]] []).1
      ≠ (scanIters 10000 10000 [[some "activity:1", some "activity:2"]] [] []).1 := by
  refine ⟨by decide, by decide, by decide⟩

/-- C5 (amended): for every run of the pagination engine the returned list
contains no two entries with the same identifier, and its entries are exactly
the within-window posts in discovery order up to an unspecified permutation
(the final `list(set(post_links))` conversion enumerates the accumulated
links in the process's set-iteration order). -/
theorem C5_no_duplicates :
    ∀ (now limit : Int) (setEnum : List String → List String)
      (iters : List (List (Option String))) (seen0 : List String),
      goodEnum setEnum →
      (get_post_links now limit setEnum iters seen0).1.Nodup ∧
      (get_post_links now limit setEnum iters seen0).1.Perm
        (scanIters now limit iters seen0 []).1 := by
  intro now limit setEnum iters seen0 hEnum
  have hspec := scanIters_spec now limit iters seen0 []
    (fun x hx => absurd hx (List.not_mem_nil x)) List.nodup_nil
  have hnd : (scanIters now limit iters seen0 []).1.Nodup := hspec.2.1
  have hperm : (get_post_links now limit setEnum iters seen0).1.Perm
      (scanIters now limit iters seen0 []).1 := by
    rw [get_post_links_fst]
    have h := hEnum (scanIters now limit iters seen0 []).1
    rw [List.dedup_eq_self.mpr hnd] at h
    exact h
  exact ⟨hperm.symm.nodup hnd, hperm⟩

/-- Witness for C5 (amended) at a concrete run with two within-window posts
and the set-enumeration order `List.dedup`. -/
theorem C5_no_duplicates_witness :
    (get_post_links 10000 10000 (fun l => l.dedup)
        [[some "activity:1", some "activity:2"]] []).1.Nodup ∧
    (get_post_links 10000 10000 (fun l => l.dedup)
        [[some "activity:1", some "activity:2"]] []).1.Perm
      (scanIters 10000 10000 [[some "activity:1", some "activity:2"]] [] []).1 :=
  C5_no_duplicates 10000 10000 (fun l => l.dedup)
    [[some "activity:1", some "activity:2"]] [] goodEnum_dedup

/-! ## C6: the scan stops at the first over-window unseen element -/

/-- C6: as soon as the scan meets a previously-unseen element whose decoded
age exceeds the retention window, scanning stops: the over-window element's
canonical URL is not appended (and, being absent from the accumulated links,
is absent from the returned list for every possible set-enumeration order),
the elements after it in the same snapshot (`rest`) are not processed, and no
later scroll iteration (`iters2`) runs — the result is literally independent
of both.  `stPre` is the scan state after the elements preceding the
over-window element; quantifying over the initial `seen0`/`links0` covers
every reachable state of the scroll loop, `links0 = []` being a fresh
`get_post_links` call. -/
theorem C6_stops_at_first_over_age :
    ∀ (now limit : Int) (setEnum : List String → List String)
      (seen0 links0 : List String) (pre rest : List (Option String))
      (iters2 : List (List (Option String))) (urn : String) (ts : Nat)
      (stPre : IterState),
      goodEnum setEnum →
      (∀ x ∈ links0, x ∈ seen0) →
      processElems now limit pre ⟨seen0, links0, false, true⟩ = stPre →
      stPre.keepScrolling = true →
      cleanUrlOf urn ∉ stPre.seen →
      get_timestamp_from_urn urn = some ts →
      ¬ now - (ts : Int) ≤ limit →
      scanIters now limit ((pre ++ some urn :: rest) :: iters2) seen0 links0
        = (stPre.links, cleanUrlOf urn :: stPre.seen) ∧
      cleanUrlOf urn ∉ stPre.links ∧
      cleanUrlOf urn ∉ setEnum stPre.links := by
  intro now limit setEnum seen0 links0 pre rest iters2 urn ts stPre
    hEnum hsub hpre hk hs hd hage
  have hemp : (pre ++ some urn :: rest).isEmpty = false := by
    cases pre <;> rfl
  have hstep : processElems now limit (pre ++ some urn :: rest)
      ⟨seen0, links0, false, true⟩
      = { stPre with
          seen := cleanUrlOf urn :: stPre.seen
          newFound := true
          keepScrolling := false } := by
    rw [show pre ++ some urn :: rest = (pre ++ [some urn]) ++ rest by simp,
      processElems_append, processElems_append, hpre]
    rw [show processElems now limit [some urn] stPre
        = stepElem now limit stPre (some urn) from rfl]
    rw [stepElem_over now limit stPre urn ts hk hs hd hage]
    exact processElems_stopped now limit rest _ rfl
  have hnotlinks : cleanUrlOf urn ∉ stPre.links := by
    have h := (processElems_spec now limit pre ⟨seen0, links0, false, true⟩).2.2.1 hsub
    rw [hpre] at h
    exact fun hmem => hs (h _ hmem)
  refine ⟨?_, hnotlinks, ?_⟩
  · rw [scanIters, hstep]
    have h1 : ¬((pre ++ some urn :: rest).isEmpty = true) := by
      rw [hemp]
      exact Bool.false_ne_true
    rw [if_neg h1]
    rfl
  · intro hmem
    have hperm := hEnum stPre.links
    exact hnotlinks (List.mem_dedup.1 (hperm.mem_iff.1 hmem))

/-- Witness for C6: a run whose snapshot holds a within-window post, then an
over-window post, then a further element, followed by one more scroll
iteration; the scan returns just the first link and ignores everything from
the over-window element on. -/
theorem C6_stops_at_first_over_age_witness :
    scanIters 1000000 100
        (([some "activity:999900"] ++ some "activity:1000"
            :: [some "activity:999901"]) :: [[some "activity:999902"]]) [] []
      = (["https://www.linkedin.com/feed/update/urn:li:activity:999900/"],
         cleanUrlOf "activity:1000"
           :: ["https://www.linkedin.com/feed/update/urn:li:activity:999900/"]) ∧
    cleanUrlOf "activity:1000"
      ∉ ["https://www.linkedin.com/feed/update/urn:li:activity:999900/"] ∧
    cleanUrlOf "activity:1000"
      ∉ (fun l => l.dedup)
          ["https://www.linkedin.com/feed/update/urn:li:activity:999900/"] := by
  have h := C6_stops_at_first_over_age 1000000 100 (fun l => l.dedup) [] []
    [some "activity:999900"] [some "activity:999901"] [[some "activity:999902"]]
    "activity:1000" 1000
    ⟨["https://www.linkedin.com/feed/update/urn:li:activity:999900/"],
     ["https://www.linkedin.com/feed/update/urn:li:activity:999900/"], true, true⟩
    goodEnum_dedup (fun x hx => absurd hx (List.not_mem_nil x))
    (by decide) rfl (by decide) (by decide) (by decide)
  exact h

/-! ## C10: the seen-set is scoped to the scraper instance, not the target -/

/-- C10: the `seen_post_links` set lives on the `LinkedinScraper` instance and
one instance is shared by all targets of a run, so the seen-set returned by
one target's pagination is the one a later target's pagination starts from;
any canonical URL present in the starting seen-set — in particular every link
returned for an earlier target — is omitted from the later target's returned
links, whatever that target's snapshots, clock and retention window are. -/
theorem C10_seen_set_spans_targets :
    ∀ (now1 limit1 now2 limit2 : Int)
      (enum1 enum2 : List String → List String)
      (iters1 iters2 : List (List (Option String))) (seen0 : List String),
      goodEnum enum1 → goodEnum enum2 →
      ∀ u, u ∈ (get_post_links now1 limit1 enum1 iters1 seen0).1 →
        u ∉ (get_post_links now2 limit2 enum2 iters2
              (get_post_links now1 limit1 enum1 iters1 seen0).2).1 := by
  intro now1 limit1 now2 limit2 enum1 enum2 iters1 iters2 seen0 h1 h2 u hu hu2
  have hnil : ∀ x ∈ ([] : List String), x ∈ seen0 :=
    fun x hx => absurd hx (List.not_mem_nil x)
  have hspec1 := scanIters_spec now1 limit1 iters1 seen0 [] hnil List.nodup_nil
  rw [get_post_links_fst] at hu
  have hu1 : u ∈ (scanIters now1 limit1 iters1 seen0 []).1 :=
    List.mem_dedup.1 ((h1 _).mem_iff.1 hu)
  have hseen1 : u ∈ (scanIters now1 limit1 iters1 seen0 []).2 := hspec1.1 _ hu1
  rw [get_post_links_fst, get_post_links_snd] at hu2
  have hnil2 : ∀ x ∈ ([] : List String),
      x ∈ (scanIters now1 limit1 iters1 seen0 []).2 :=
    fun x hx => absurd hx (List.not_mem_nil x)
  have hspec2 := scanIters_spec now2 limit2 iters2
    (scanIters now1 limit1 iters1 seen0 []).2 [] hnil2 List.nodup_nil
  have hu2' : u ∈ (scanIters now2 limit2 iters2
      (scanIters now1 limit1 iters1 seen0 []).2 []).1 :=
    List.mem_dedup.1 ((h2 _).mem_iff.1 hu2)
  rcases hspec2.2.2.2 _ hu2' with h | h
  · exact absurd h (List.not_mem_nil u)
  · exact h hseen1

/-- Witness for C10: a post link discovered for a first target is omitted
from a second target's returned links even though it is within the second
target's window. -/
theorem C10_seen_set_spans_targets_witness :
    "https://www.linkedin.com/feed/update/urn:li:activity:1/"
      ∉ (get_post_links 10000 10000 (fun l => l.dedup)
          [[some "activity:1", some "activity:2"]]
          (get_post_links 10000 10000 (fun l => l.dedup)
            [[some "activity:1"]] []).2).1 :=
  C10_seen_set_spans_targets 10000 10000 10000 10000
    (fun l => l.dedup) (fun l => l.dedup)
    [[some "activity:1"]] [[some "activity:1", some "activity:2"]] []
    goodEnum_dedup goodEnum_dedup
    "https://www.linkedin.com/feed/update/urn:li:activity:1/" (by decide)

end Scraper
